import Mathlib

/-!
Verification of the KNCCI Jiinue Business Verification Dashboard
(src/business_verification_dashbaord.py) against its specification.

The embedding models the data-cleaning pipeline of the script:
  - clean_phone          (lines 20-27): phone-number normalization
  - load_data            (lines 31-58): timestamp parse/drop, county/id/phone
                          normalization, global duplicate tagging
  - filtered_df          (lines 110-114): date-range and county filtering
  - deduplicated_filtered_df (lines 119-122): drop_duplicates keep-first

Strings are modelled as List Char.  pandas duplicated(keep) and
drop_duplicates(keep) with keep set to first are modelled by a single
left-to-right pass carrying the set of already-seen keys, which is their
documented semantics.  pd.to_datetime with coercion of errors is an external
best-effort parser; its per-row result is modelled as an Option Nat field of
the raw row (none corresponds to NaT).
-/

namespace BVDash

/-! ## Generic keep-first deduplication and duplicate flagging -/

variable {α κ : Type} [DecidableEq κ]

/-- One left-to-right pass of drop_duplicates with keep set to first:
`seen` is the set of keys already encountered. -/
def dedupGo (key : α → κ) : List κ → List α → List α
  | _, [] => []
  | seen, r :: rs =>
    if key r ∈ seen then dedupGo key seen rs
    else r :: dedupGo key (key r :: seen) rs

/-- pandas drop_duplicates(subset, keep first) on an ordered sequence. -/
def dedupKeepFirst (key : α → κ) (rs : List α) : List α := dedupGo key [] rs

/-- One left-to-right pass of duplicated with keep set to first, returning
each record paired with its duplicate flag. -/
def annGo (key : α → κ) : List κ → List α → List (α × Bool)
  | _, [] => []
  | seen, r :: rs =>
    if key r ∈ seen then (r, true) :: annGo key seen rs
    else (r, false) :: annGo key (key r :: seen) rs

/-- pandas duplicated(subset, keep first): every record paired with the
flag marking it as a non-first occurrence of its key. -/
def annotate (key : α → κ) (rs : List α) : List (α × Bool) := annGo key [] rs

/-! ## Character-level helpers (Python string methods on ASCII data) -/

/-- Characters removed by Python str.strip (ASCII whitespace). -/
def wsChar (c : Char) : Bool :=
  (c == ' ') || (c == '\t') || (c == '\n') || (c == '\r') || (c == '\x0b') || (c == '\x0c')

/-- Python str.strip: drop whitespace from both ends. -/
def pyStrip (l : List Char) : List Char :=
  ((l.dropWhile wsChar).reverse.dropWhile wsChar).reverse

/-- Characters kept by the replace calls of clean_phone (line 22):
everything except space, plus and minus. -/
def sepOK (c : Char) : Bool := !((c == ' ') || (c == '+') || (c == '-'))

/-- The replace(" ",""), replace("+",""), replace("-","") chain of line 22. -/
def removeSep (l : List Char) : List Char := l.filter sepOK

/-- Line 22 of the source: strip then remove separators. -/
def cleanStr (p : List Char) : List Char := removeSep (pyStrip p)

/-- Python str.upper on one ASCII character. -/
def upChar (c : Char) : Char :=
  if 'a' ≤ c ∧ c ≤ 'z' then Char.ofNat (c.toNat - 32) else c

/-- Python str.lower on one ASCII character. -/
def lowChar (c : Char) : Char :=
  if 'A' ≤ c ∧ c ≤ 'Z' then Char.ofNat (c.toNat + 32) else c

/-- Cased character in the sense of Python str.title (ASCII letters). -/
def casedChar (c : Char) : Bool :=
  decide (('a' ≤ c ∧ c ≤ 'z') ∨ ('A' ≤ c ∧ c ≤ 'Z'))

/-- Python str.title, carrying whether the previous character was cased:
a cased character after a non-cased one is uppercased, a cased character
after a cased one is lowercased, everything else is kept. -/
def titleGo : Bool → List Char → List Char
  | _, [] => []
  | prev, c :: cs =>
    (if casedChar c then (if prev then lowChar c else upChar c) else c) :: titleGo (casedChar c) cs

/-- Python str.title on a whole string. -/
def pyTitle (l : List Char) : List Char := titleGo false l

/-- Decidable digit test used in hypotheses about numeric strings. -/
def isDigitChar (c : Char) : Bool := decide ('0' ≤ c) && decide (c ≤ '9')

/-! ## The field normalizers of the source -/

/-- clean_phone (source lines 20-27): strip, drop separators, then
0-prefix becomes 254, a bare 9-digit 7-prefix gets 254 prepended,
anything else passes through. -/
def clean_phone (p : List Char) : List Char :=
  if (cleanStr p).head? = some '0' then '2' :: '5' :: '4' :: (cleanStr p).tail
  else if (cleanStr p).head? = some '7' ∧ (cleanStr p).length = 9 then
    '2' :: '5' :: '4' :: cleanStr p
  else cleanStr p

/-- Verified ID Number normalization (source line 49): strip then upper. -/
def verifiedIdNorm (s : List Char) : List Char := (pyStrip s).map upChar

/-- County normalization (source line 48): strip then title-case. -/
def countyNorm (s : List Char) : List Char := pyTitle (pyStrip s)

/-! ## Rows and the load_data pipeline -/

/-- One raw CSV row.  `ts` is the per-row outcome of the best-effort
timestamp parser pd.to_datetime with coercion (line 44): none is NaT. -/
structure RawRow where
  ts : Option Nat
  county : List Char
  vid : List Char
  phone : List Char
deriving DecidableEq

/-- One normalized row, after the cleaning of lines 44-50. -/
structure NRow where
  ts : Nat
  county : List Char
  vid : List Char
  phone : List Char
deriving DecidableEq

/-- The dedup key of lines 53 and 120: Verified ID Number and
Verified Phone Number, after normalization (strict mode). -/
def nkey (n : NRow) : List Char × List Char := (n.vid, n.phone)

/-- Raw-mode key: the identity fields exactly as entered. -/
def rawKey (r : RawRow) : List Char × List Char := (r.vid, r.phone)

/-- Field normalization of one surviving row (lines 48-50). -/
def normRow (t : Nat) (r : RawRow) : NRow :=
  ⟨t, countyNorm r.county, verifiedIdNorm r.vid, clean_phone r.phone⟩

/-- load_data (source lines 31-58): coerce timestamps, drop NaT rows,
normalize County, Verified ID Number and Verified Phone Number, then tag
global duplicates with duplicated(keep first) on the (id, phone) key. -/
def load_data (rows : List RawRow) : List (NRow × Bool) :=
  annotate nkey (rows.filterMap (fun r => Option.map (fun t => normRow t r) r.ts))

/-- Sidebar filter predicate of lines 110-114: timestamp in the selected
date range and county among the selected counties. -/
def inFilter (s e : Nat) (sel : List (List Char)) (n : NRow) : Bool :=
  decide (s ≤ n.ts) && decide (n.ts ≤ e) && decide (n.county ∈ sel)

/-- filtered_df (lines 110-114). -/
def filtered_df (rows : List RawRow) (s e : Nat) (sel : List (List Char)) :
    List (NRow × Bool) :=
  (load_data rows).filter (fun p => inFilter s e sel p.1)

/-- deduplicated_filtered_df (lines 119-122): drop_duplicates keep-first on
the (id, phone) key over the filtered rows. -/
def deduplicated_filtered_df (rows : List RawRow) (s e : Nat) (sel : List (List Char)) :
    List (NRow × Bool) :=
  dedupKeepFirst (fun p => nkey p.1) (filtered_df rows s e sel)

/-! ## Reference data and concrete inputs -/

/-- ASCII apostrophe. -/
def apos : Char := Char.ofNat 39

/-- Typographic right single quote, the curly apostrophe. -/
def rsquo : Char := Char.ofNat 8217

/-- The reference enumeration entry for Muranga county, spelled with the
ASCII apostrophe as in source lines 181-189. -/
def murangaRef : List Char := "Murang".data ++ [apos, 'a']

/-- all_counties_47 (source lines 181-189). -/
def all_counties_47 : List (List Char) :=
  ["Mombasa".data, "Kwale".data, "Kilifi".data, "Tana River".data, "Lamu".data,
   "Taita Taveta".data, "Garissa".data, "Wajir".data, "Mandera".data, "Marsabit".data,
   "Isiolo".data, "Meru".data, "Tharaka Nithi".data, "Embu".data, "Kitui".data,
   "Machakos".data, "Makueni".data, "Nyandarua".data, "Nyeri".data, "Kirinyaga".data,
   murangaRef, "Kiambu".data, "Turkana".data, "West Pokot".data, "Samburu".data,
   "Trans Nzoia".data, "Uasin Gishu".data, "Elgeyo Marakwet".data, "Nandi".data,
   "Baringo".data, "Laikipia".data, "Nakuru".data, "Narok".data, "Kajiado".data,
   "Kericho".data, "Bomet".data, "Kakamega".data, "Vihiga".data, "Bungoma".data,
   "Busia".data, "Siaya".data, "Kisumu".data, "Homa Bay".data, "Migori".data,
   "Kisii".data, "Nyamira".data, "Nairobi".data]

/-- The county raw value of spec Scenario 2: leading and trailing spaces,
lower case, curly apostrophe. -/
def murangaRaw : List Char := ' ' :: ("murang".data ++ [rsquo, 'a', ' '])

/-- Two raw rows sharing the same identity key, the first with an
unparsable timestamp (NaT), the second parsable. -/
def c2rows : List RawRow :=
  [⟨none, "Nairobi".data, "A1".data, "0700000001".data⟩,
   ⟨some 5, "Nairobi".data, "A1".data, "0700000001".data⟩]

/-! ## Lemmas on the generic deduplicator -/

theorem annGo_map_fst (key : α → κ) :
    ∀ (seen : List κ) (rs : List α), (annGo key seen rs).map Prod.fst = rs := by
  intro seen rs
  induction rs generalizing seen with
  | nil => simp [annGo]
  | cons r rs ih =>
    by_cases h : key r ∈ seen <;> simp [annGo, h, ih]

theorem annGo_length (key : α → κ) (seen : List κ) (rs : List α) :
    (annGo key seen rs).length = rs.length := by
  have h := congrArg List.length (annGo_map_fst key seen rs)
  simpa using h

theorem dedupGo_sublist (key : α → κ) :
    ∀ (seen : List κ) (rs : List α), (dedupGo key seen rs).Sublist rs := by
  intro seen rs
  induction rs generalizing seen with
  | nil => simp [dedupGo]
  | cons r rs ih =>
    by_cases h : key r ∈ seen
    · simpa [dedupGo, h] using (ih seen).cons r
    · simpa [dedupGo, h] using (ih (key r :: seen)).cons₂ r

theorem dedupGo_eq_filter_annGo (key : α → κ) :
    ∀ (seen : List κ) (rs : List α),
      dedupGo key seen rs = ((annGo key seen rs).filter (fun p => !p.2)).map Prod.fst := by
  intro seen rs
  induction rs generalizing seen with
  | nil => simp [dedupGo, annGo]
  | cons r rs ih =>
    by_cases h : key r ∈ seen <;> simp [dedupGo, annGo, h, ih, List.filter_cons]

theorem annGo_getElem? (key : α → κ) :
    ∀ (rs : List α) (seen : List κ) (i : Nat) (hi : i < rs.length),
      (annGo key seen rs)[i]? =
        some (rs.get ⟨i, hi⟩,
          decide (key (rs.get ⟨i, hi⟩) ∈ seen ++ (rs.take i).map key)) := by
  intro rs
  induction rs with
  | nil => intro seen i hi; simp at hi
  | cons r rs ih =>
    intro seen i hi
    cases i with
    | zero => by_cases h : key r ∈ seen <;> simp [annGo, h]
    | succ i =>
      have hi' : i < rs.length := Nat.lt_of_succ_lt_succ hi
      by_cases h : key r ∈ seen
      · have hgo : (annGo key seen (r :: rs))[i + 1]? = (annGo key seen rs)[i]? := by
          simp [annGo, h]
        rw [hgo, ih seen i hi']
        have hmem : (key (rs.get ⟨i, hi'⟩) ∈ seen ++ (rs.take i).map key) ↔
            (key (rs.get ⟨i, hi'⟩) ∈ seen ++ (key r :: (rs.take i).map key)) := by
          have haux : key (rs.get ⟨i, hi'⟩) = key r → key (rs.get ⟨i, hi'⟩) ∈ seen :=
            fun e => e ▸ h
          simp only [List.mem_append, List.mem_cons]
          tauto
        have hget : (r :: rs).get ⟨i + 1, hi⟩ = rs.get ⟨i, hi'⟩ := rfl
        have htake : ((r :: rs).take (i + 1)).map key = key r :: (rs.take i).map key := rfl
        rw [hget, htake]
        exact congrArg some (congrArg _ (decide_eq_decide.mpr hmem))
      · have hgo : (annGo key seen (r :: rs))[i + 1]? = (annGo key (key r :: seen) rs)[i]? := by
          simp [annGo, h]
        rw [hgo, ih (key r :: seen) i hi']
        have hmem : (key (rs.get ⟨i, hi'⟩) ∈ (key r :: seen) ++ (rs.take i).map key) ↔
            (key (rs.get ⟨i, hi'⟩) ∈ seen ++ (key r :: (rs.take i).map key)) := by
          simp only [List.mem_append, List.mem_cons, List.cons_append]
          tauto
        have hget : (r :: rs).get ⟨i + 1, hi⟩ = rs.get ⟨i, hi'⟩ := rfl
        have htake : ((r :: rs).take (i + 1)).map key = key r :: (rs.take i).map key := rfl
        rw [hget, htake]
        exact congrArg some (congrArg _ (decide_eq_decide.mpr hmem))

theorem dedupGo_idem (key : α → κ) :
    ∀ (seen : List κ) (rs : List α),
      dedupGo key seen (dedupGo key seen rs) = dedupGo key seen rs := by
  intro seen rs
  induction rs generalizing seen with
  | nil => simp [dedupGo]
  | cons r rs ih =>
    by_cases h : key r ∈ seen
    · simp [dedupGo, h, ih]
    · simp [dedupGo, h, ih]

theorem dedupGo_eq_nil_of_all_seen (key : α → κ) :
    ∀ (seen : List κ) (rs : List α), (∀ r ∈ rs, key r ∈ seen) → dedupGo key seen rs = [] := by
  intro seen rs
  induction rs generalizing seen with
  | nil => intro _; simp [dedupGo]
  | cons r rs ih =>
    intro h
    have hr : key r ∈ seen := h r (by simp)
    have hrs : ∀ x ∈ rs, key x ∈ seen := fun x hx => h x (by simp [hx])
    simp [dedupGo, hr, ih seen hrs]

/-- Claim C1: in either dedup mode (any key function, in particular the raw
as-entered key and the strict normalized (id, phone) key), keep-first
deduplication keeps exactly the records whose duplicate flag is false, the
kept records form a subsequence of the input (so two kept records appear in
the output in their input order), the flag annotation preserves the records
in order, and the flag of the i-th record is true exactly when its key
already occurs among the keys of the first i records, i.e. exactly on
non-first occurrences of each key. -/
theorem dedup_keeps_first_marks_rest {α κ : Type} [DecidableEq κ]
    (key : α → κ) (rs : List α) :
    dedupKeepFirst key rs = ((annotate key rs).filter (fun p => !p.2)).map Prod.fst
    ∧ (dedupKeepFirst key rs).Sublist rs
    ∧ (annotate key rs).map Prod.fst = rs
    ∧ ∀ (i : Nat) (hi : i < rs.length),
        ((annotate key rs).map Prod.snd)[i]? =
          some (decide (key (rs.get ⟨i, hi⟩) ∈ (rs.take i).map key)) := by
  refine ⟨dedupGo_eq_filter_annGo key [] rs, dedupGo_sublist key [] rs,
    annGo_map_fst key [] rs, ?_⟩
  intro i hi
  rw [List.getElem?_map]
  simp only [annotate]
  rw [annGo_getElem? key rs [] i hi]
  simp

/-- Witness for C1 at rs = [3, 5] with key n % 2 and i = 1: the second
record has the same key as the first, so its flag is true. -/
theorem dedup_keeps_first_marks_rest_witness :
    (1 < ([3, 5] : List Nat).length)
    ∧ ((annotate (fun n : Nat => n % 2) [3, 5]).map Prod.snd)[1]? = some true := by
  refine ⟨by decide, ?_⟩
  have h := (dedup_keeps_first_marks_rest (fun n : Nat => n % 2) [3, 5]).2.2.2 1 (by decide)
  simpa using h

/-- Claim C8: for every sequence and both dedup modes (any key function),
the deduplicated output is no longer than the input, and deduplication is
idempotent. -/
theorem dedup_length_le_and_idem {α κ : Type} [DecidableEq κ]
    (key : α → κ) (rs : List α) :
    (dedupKeepFirst key rs).length ≤ rs.length
    ∧ dedupKeepFirst key (dedupKeepFirst key rs) = dedupKeepFirst key rs :=
  ⟨(dedupGo_sublist key [] rs).length_le, dedupGo_idem key [] rs⟩

/-- Claim C9: records with empty identity fields raise nothing and are
deduplicated on the literal empty key, so a nonempty batch of records whose
Verified ID Number and Verified Phone Number are both empty collapses to
its first record; moreover both normalizers map the empty value to the
empty literal key component. -/
theorem empty_identity_collapse (hd : NRow) (tl : List NRow)
    (h : ∀ r ∈ hd :: tl, r.vid = [] ∧ r.phone = []) :
    dedupKeepFirst nkey (hd :: tl) = [hd]
    ∧ verifiedIdNorm [] = [] ∧ clean_phone [] = [] := by
  refine ⟨?_, by decide, by decide⟩
  have hhd : nkey hd = ([], []) := by
    have hh := h hd (by simp)
    simp [nkey, hh.1, hh.2]
  have hstep : dedupKeepFirst nkey (hd :: tl) = hd :: dedupGo nkey [nkey hd] tl := by
    simp [dedupKeepFirst, dedupGo]
  rw [hstep, dedupGo_eq_nil_of_all_seen nkey [nkey hd] tl]
  intro r hr
  have hr2 := h r (by simp [hr])
  have hk : nkey r = ([], []) := by simp [nkey, hr2.1, hr2.2]
  simp [hk, hhd]

/-- Witness for C9: two rows with empty identity fields collapse to the
first one. -/
theorem empty_identity_collapse_witness :
    (∀ r ∈ [(⟨0, "Nairobi".data, [], []⟩ : NRow), ⟨1, "Kiambu".data, [], []⟩],
        r.vid = ([] : List Char) ∧ r.phone = ([] : List Char))
    ∧ dedupKeepFirst nkey
        [(⟨0, "Nairobi".data, [], []⟩ : NRow), ⟨1, "Kiambu".data, [], []⟩]
        = [⟨0, "Nairobi".data, [], []⟩]
    ∧ verifiedIdNorm [] = [] ∧ clean_phone [] = [] := by
  refine ⟨by decide, ?_⟩
  have h := empty_identity_collapse (⟨0, "Nairobi".data, [], []⟩ : NRow)
    [⟨1, "Kiambu".data, [], []⟩] (by decide)
  exact h

/-- The flagged-and-filtered rows kept by a later keep-first dedup: every
record that passes the filter and carries a false duplicate flag computed
over the whole input is a first occurrence of its key inside the filtered
subsequence as well, so the unflagged filtered records form a subsequence
of the deduplicated filtered records. -/
theorem annGo_filter_unflagged_sublist_dedup (key : α → κ) (pred : α → Bool) :
    ∀ (rs : List α) (seenA seenD : List κ), (∀ k ∈ seenD, k ∈ seenA) →
      ((annGo key seenA rs).filter (fun p => !p.2 && pred p.1)).Sublist
        (dedupGo (fun p => key p.1) seenD
          ((annGo key seenA rs).filter (fun p => pred p.1))) := by
  intro rs
  induction rs with
  | nil => intro seenA seenD _; simp [annGo, dedupGo]
  | cons r rs ih =>
    intro seenA seenD hsub
    by_cases hA : key r ∈ seenA
    · by_cases hp : pred r = true
      · by_cases hD : key r ∈ seenD
        · simpa [annGo, hA, hp, hD, dedupGo, List.filter_cons] using ih seenA seenD hsub
        · have hsub' : ∀ k ∈ key r :: seenD, k ∈ seenA := by
            intro k hk
            rcases List.mem_cons.mp hk with hk | hk
            · exact hk ▸ hA
            · exact hsub k hk
          simpa [annGo, hA, hp, hD, dedupGo, List.filter_cons] using
            (ih seenA (key r :: seenD) hsub').cons (r, true)
      · simp only [Bool.not_eq_true] at hp
        simpa [annGo, hA, hp, dedupGo, List.filter_cons] using ih seenA seenD hsub
    · have hD : key r ∉ seenD := fun hk => hA (hsub _ hk)
      by_cases hp : pred r = true
      · have hsub' : ∀ k ∈ key r :: seenD, k ∈ key r :: seenA := by
          intro k hk
          rcases List.mem_cons.mp hk with hk | hk
          · exact hk ▸ List.mem_cons_self _ _
          · exact List.mem_cons_of_mem _ (hsub k hk)
        simpa [annGo, hA, hp, hD, dedupGo, List.filter_cons] using
          (ih (key r :: seenA) (key r :: seenD) hsub').cons₂ (r, false)
      · simp only [Bool.not_eq_true] at hp
        have hsub' : ∀ k ∈ seenD, k ∈ key r :: seenA :=
          fun k hk => List.mem_cons_of_mem _ (hsub k hk)
        simpa [annGo, hA, hp, dedupGo, List.filter_cons] using
          ih (key r :: seenA) seenD hsub'

/-- Claim C10: for every date range and county selection, the filtered rows
whose global duplicate flag is false form a subsequence of the rows kept by
the deduplication of the filtered subset, so the unique-submissions count
is at least the number of unflagged rows in the filter. -/
theorem unflagged_filtered_rows_kept (rows : List RawRow) (s e : Nat)
    (sel : List (List Char)) :
    ((filtered_df rows s e sel).filter (fun p => !p.2)).Sublist
      (deduplicated_filtered_df rows s e sel)
    ∧ ((filtered_df rows s e sel).filter (fun p => !p.2)).length ≤
      (deduplicated_filtered_df rows s e sel).length := by
  have h := annGo_filter_unflagged_sublist_dedup nkey (inFilter s e sel)
    (rows.filterMap (fun r => Option.map (fun t => normRow t r) r.ts)) [] []
    (by simp)
  have heq : (filtered_df rows s e sel).filter (fun p => !p.2)
      = (annGo nkey []
          (rows.filterMap (fun r => Option.map (fun t => normRow t r) r.ts))).filter
            (fun p => !p.2 && inFilter s e sel p.1) := by
    simp [filtered_df, load_data, annotate, List.filter_filter]
  have hsb : ((filtered_df rows s e sel).filter (fun p => !p.2)).Sublist
      (deduplicated_filtered_df rows s e sel) := by
    rw [heq]
    simpa [deduplicated_filtered_df, filtered_df, load_data, annotate,
      dedupKeepFirst] using h
  exact ⟨hsb, hsb.length_le⟩

/-- Rows whose timestamp fails to parse contribute nothing to the filterMap
of load_data: removing them beforehand leaves the mapped list unchanged. -/
theorem filterMap_normRow_filter_parsable (rows : List RawRow) :
    rows.filterMap (fun r => Option.map (fun t => normRow t r) r.ts)
      = (rows.filter (fun r => r.ts.isSome)).filterMap
          (fun r => Option.map (fun t => normRow t r) r.ts) := by
  induction rows with
  | nil => simp
  | cons r rs ih =>
    cases hr : r.ts <;>
      simp [List.filterMap_cons, List.filter_cons, hr, ih]

/-- The filterMap of load_data produces exactly one row per parsable row. -/
theorem filterMap_normRow_length (rows : List RawRow) :
    (rows.filterMap (fun r => Option.map (fun t => normRow t r) r.ts)).length
      = (rows.filter (fun r => r.ts.isSome)).length := by
  induction rows with
  | nil => simp
  | cons r rs ih =>
    cases hr : r.ts <;>
      simp [List.filterMap_cons, List.filter_cons, hr, ih]

/-- Claim C2, amended: a record whose timestamp fails to parse receives the
explicit NaT marker and is then dropped from the working dataset entirely,
so it is excluded from every time-windowed aggregation and also from global
deduplication: load_data is unchanged when unparsable rows are removed
beforehand, and it yields exactly one output row per parsable input row. -/
theorem load_data_drops_unparsable (rows : List RawRow) :
    load_data rows = load_data (rows.filter (fun r => r.ts.isSome))
    ∧ (load_data rows).length = (rows.filter (fun r => r.ts.isSome)).length := by
  constructor
  · simp only [load_data]
    rw [filterMap_normRow_filter_parsable rows]
  · simp only [load_data, annotate]
    rw [annGo_length]
    exact filterMap_normRow_length rows

/-- Counterexample to claim C2 as stated: in c2rows the first record has an
unparsable timestamp and the same identity key as the second record, yet
load_data keeps a single row whose global duplicate flag is false — the
unparsable record did not participate in global deduplication (had it
participated, the surviving record would be flagged as a duplicate). -/
theorem ts_unparsable_excluded_cx :
    c2rows.map RawRow.ts = [none, some 5]
    ∧ nkey (normRow 0 (⟨none, "Nairobi".data, "A1".data, "0700000001".data⟩ : RawRow))
        = nkey (normRow 5 (⟨some 5, "Nairobi".data, "A1".data, "0700000001".data⟩ : RawRow))
    ∧ (load_data c2rows).map Prod.snd = [false]
    ∧ (load_data c2rows).length = 1
    ∧ (annotate nkey (c2rows.map (fun r => normRow 0 r))).map Prod.snd = [false, true] := by
  decide

/-! ## Helper lemmas on strip, separators and case mapping -/

theorem dropWhile_eq_self_of_all (f : Char → Bool) :
    ∀ l : List Char, (∀ c ∈ l, f c = false) → l.dropWhile f = l := by
  intro l h
  cases l with
  | nil => rfl
  | cons c cs =>
    rw [List.dropWhile_cons, if_neg (by simp [h c (List.mem_cons_self c cs)])]

theorem pyStrip_eq_self_of_no_ws (l : List Char) (h : ∀ c ∈ l, wsChar c = false) :
    pyStrip l = l := by
  rw [pyStrip, dropWhile_eq_self_of_all wsChar l h,
    dropWhile_eq_self_of_all wsChar l.reverse (fun c hc => h c (List.mem_reverse.mp hc)),
    List.reverse_reverse]

theorem upChar_eq_self_of_lt (c : Char) (h : c < 'a') : upChar c = c := by
  rw [upChar, if_neg]
  rintro ⟨h1, _⟩
  exact absurd (lt_of_lt_of_le h h1) (lt_irrefl c)

theorem wsChar_lt_zero (c : Char) (h : wsChar c = true) : c < '0' := by
  simp only [wsChar, Bool.or_eq_true, beq_iff_eq] at h
  rcases h with ((((rfl | rfl) | rfl) | rfl) | rfl) | rfl <;> decide

theorem map_eq_self_of_mem (f : Char → Char) :
    ∀ l : List Char, (∀ c ∈ l, f c = c) → l.map f = l := by
  intro l h
  induction l with
  | nil => rfl
  | cons c cs ih => simp [h c (by simp), ih (fun x hx => h x (by simp [hx]))]

theorem head_not_of_dropWhile_eq (f : Char → Bool) (d : Char) (L : List Char)
    (h : (d :: L).dropWhile f = d :: L) : f d = false := by
  by_cases hd : f d = true
  · rw [List.dropWhile_cons, if_pos hd] at h
    have hlen := congrArg List.length h
    have hle : (L.dropWhile f).length ≤ L.length :=
      List.Sublist.length_le (List.dropWhile_sublist f)
    simp at hlen
    omega
  · simpa using hd

theorem tail_boundary (t : List Char) (c : Char)
    (h : (t.reverse ++ [c]).dropWhile wsChar = t.reverse ++ [c]) :
    t = [] ∨ t.reverse.dropWhile wsChar = t.reverse := by
  cases ht : t.reverse with
  | nil => exact Or.inl (List.reverse_eq_nil_iff.mp ht)
  | cons d L =>
    right
    rw [ht, List.cons_append] at h
    have hd := head_not_of_dropWhile_eq wsChar d (L ++ [c]) h
    rw [List.dropWhile_cons, if_neg (by simp [hd])]

theorem prepend_254_cleanStr (t : List Char)
    (hsep : ∀ c ∈ t, sepOK c = true)
    (hb : t = [] ∨ t.reverse.dropWhile wsChar = t.reverse) :
    cleanStr ('2' :: '5' :: '4' :: t) = '2' :: '5' :: '4' :: t := by
  have hrev : ('2' :: '5' :: '4' :: t).reverse = t.reverse ++ ['4', '5', '2'] := by
    simp
  have hds : (t.reverse ++ ['4', '5', '2']).dropWhile wsChar
      = t.reverse ++ ['4', '5', '2'] := by
    cases ht : t.reverse with
    | nil => decide
    | cons d L =>
      rcases hb with hb | hb
      · rw [hb] at ht; simp at ht
      · rw [ht] at hb
        have hd := head_not_of_dropWhile_eq wsChar d L hb
        rw [List.cons_append, List.dropWhile_cons, if_neg (by simp [hd])]
  have h1 : pyStrip ('2' :: '5' :: '4' :: t) = '2' :: '5' :: '4' :: t := by
    rw [pyStrip, List.dropWhile_cons, if_neg (by decide), hrev, hds, ← hrev,
      List.reverse_reverse]
  have h2 : removeSep ('2' :: '5' :: '4' :: t) = '2' :: '5' :: '4' :: t := by
    rw [removeSep]
    refine List.filter_eq_self.mpr ?_
    intro a ha
    simp only [List.mem_cons] at ha
    rcases ha with rfl | rfl | rfl | ha
    · decide
    · decide
    · decide
    · exact hsep a ha
  have hc : cleanStr ('2' :: '5' :: '4' :: t)
      = removeSep (pyStrip ('2' :: '5' :: '4' :: t)) := rfl
  rw [hc, h1, h2]

/-! ## Claims C3 and C4: ID and county normalization -/

/-- Counterexample to claim C3 as stated: the source performs only strip
and upper on Verified ID Number (line 49), so the spreadsheet artifact
value 12345678.0 is left as is and is not truncated to 12345678. -/
theorem id_norm_truncation_cx :
    verifiedIdNorm "12345678.0".data = "12345678.0".data
    ∧ verifiedIdNorm "12345678.0".data ≠ "12345678".data := by
  decide

/-- Claim C3, amended: ID normalization strips surrounding whitespace and
upper-cases only; a numeric string with a trailing dot-zero spreadsheet
artifact is preserved verbatim, not truncated — for every digit string s,
s followed by dot-zero normalizes to itself. -/
theorem id_norm_no_truncation (s : List Char) (h : ∀ c ∈ s, isDigitChar c = true) :
    verifiedIdNorm (s ++ ['.', '0']) = s ++ ['.', '0'] := by
  have hlt : ∀ c ∈ s ++ ['.', '0'], c < 'a' := by
    intro c hc
    rcases List.mem_append.mp hc with hc | hc
    · have hd := h c hc
      have h9 : c ≤ '9' :=
        of_decide_eq_true ((Bool.and_eq_true _ _).mp hd).2
      exact lt_of_le_of_lt h9 (by decide)
    · simp only [List.mem_cons, List.not_mem_nil, or_false] at hc
      rcases hc with rfl | rfl <;> decide
  have hnw : ∀ c ∈ s ++ ['.', '0'], wsChar c = false := by
    intro c hc
    cases hw : wsChar c with
    | false => rfl
    | true =>
      exfalso
      have hlt0 := wsChar_lt_zero c hw
      rcases List.mem_append.mp hc with hcs | hcs
      · have hd := h c hcs
        have h0 : '0' ≤ c :=
          of_decide_eq_true ((Bool.and_eq_true _ _).mp hd).1
        exact absurd hlt0 (not_lt.mpr h0)
      · simp only [List.mem_cons, List.not_mem_nil, or_false] at hcs
        rcases hcs with rfl | rfl <;> exact absurd hw (by decide)
  rw [verifiedIdNorm, pyStrip_eq_self_of_no_ws _ hnw]
  exact map_eq_self_of_mem upChar _
    (fun c hc => upChar_eq_self_of_lt c (hlt c hc))

/-- Witness for the amended C3 at the spec scenario input 12345678.0. -/
theorem id_norm_no_truncation_witness :
    (∀ c ∈ "12345678".data, isDigitChar c = true)
    ∧ verifiedIdNorm ("12345678".data ++ ['.', '0']) = "12345678".data ++ ['.', '0'] :=
  ⟨by decide, id_norm_no_truncation ("12345678".data) (by decide)⟩

/-- Counterexample to claim C4 as stated: the source applies only strip
and title to County (line 48); title-casing capitalizes the letter after
an apostrophe and no apostrophe glyph mapping is performed, so the raw
value with stray spaces, lower case and a curly apostrophe does not
normalize to the reference enumeration entry. -/
theorem county_norm_apostrophe_cx :
    countyNorm murangaRaw ≠ murangaRef ∧ murangaRef ∈ all_counties_47 := by
  decide

/-- Claim C4, amended: county normalization strips surrounding whitespace
and applies Python title-casing, which upper-cases any letter following a
non-letter (including either apostrophe glyph) and maps no apostrophe
variant to ASCII; the scenario raw value normalizes to a string with the
curly apostrophe kept and a capital final A, which is not the reference
entry, while an apostrophe-free value such as nairobi title-cases to its
reference entry. -/
theorem county_norm_titlecase_behavior :
    countyNorm murangaRaw = "Murang".data ++ [rsquo, 'A']
    ∧ countyNorm murangaRaw ∉ all_counties_47
    ∧ murangaRef ∈ all_counties_47
    ∧ countyNorm " nairobi ".data = "Nairobi".data
    ∧ "Nairobi".data ∈ all_counties_47 := by
  decide

/-! ## Claims C5, C6 and C7: phone normalization -/

/-- Claim C5: for every phone input whose cleaned form (whitespace, plus
and minus stripped) is numeric and starts with 0, clean_phone replaces the
leading 0 with 254, returning 254 followed by the cleaned string without
its first character. -/
theorem phone_zero_prefix (p : List Char)
    (hdig : ∀ c ∈ cleanStr p, isDigitChar c = true)
    (h0 : (cleanStr p).head? = some '0') :
    clean_phone p = '2' :: '5' :: '4' :: (cleanStr p).tail := by
  simp only [clean_phone]
  rw [if_pos h0]

/-- Witness for C5 at the spec example 0712345678. -/
theorem phone_zero_prefix_witness :
    (∀ c ∈ cleanStr "0712345678".data, isDigitChar c = true)
    ∧ (cleanStr "0712345678".data).head? = some '0'
    ∧ clean_phone "0712345678".data = "254712345678".data := by
  refine ⟨by decide, by decide, ?_⟩
  have h := phone_zero_prefix "0712345678".data (by decide) (by decide)
  rw [h]
  decide

/-- Counterexample to claim C6 as stated: the cleaned input 15 starts with
the bare subscriber prefix 1 and with neither 0 nor 254, yet clean_phone
does not prepend 254 — the source has no branch for prefix 1, and its
prefix-7 branch additionally requires length exactly 9. -/
theorem phone_one_prefix_cx :
    cleanStr "15".data = "15".data
    ∧ (cleanStr "15".data).head? = some '1'
    ∧ clean_phone "15".data ≠ '2' :: '5' :: '4' :: cleanStr "15".data
    ∧ clean_phone "15".data = "15".data := by
  decide

/-- Claim C6, amended: for every phone input whose cleaned form does not
start with 0, clean_phone prepends 254 if and only if the cleaned form
starts with 7 and has length exactly 9; in every other case — including
cleaned forms starting with 1 and 7-forms of any other length — the
cleaned form is returned unchanged. -/
theorem phone_subscriber_prefix_amended (p : List Char)
    (h0 : (cleanStr p).head? ≠ some '0') :
    (clean_phone p = '2' :: '5' :: '4' :: cleanStr p ↔
      ((cleanStr p).head? = some '7' ∧ (cleanStr p).length = 9))
    ∧ (¬((cleanStr p).head? = some '7' ∧ (cleanStr p).length = 9) →
      clean_phone p = cleanStr p) := by
  by_cases hB : (cleanStr p).head? = some '7' ∧ (cleanStr p).length = 9
  · have hcp : clean_phone p = '2' :: '5' :: '4' :: cleanStr p := by
      simp only [clean_phone]
      rw [if_neg h0, if_pos hB]
    exact ⟨⟨fun _ => hB, fun _ => hcp⟩, fun hn => absurd hB hn⟩
  · have hcp : clean_phone p = cleanStr p := by
      simp only [clean_phone]
      rw [if_neg h0, if_neg hB]
    refine ⟨⟨fun he => ?_, fun hc => absurd hc hB⟩, fun _ => hcp⟩
    exfalso
    rw [hcp] at he
    have hlen := congrArg List.length he
    simp at hlen
    omega

/-- Witness for the amended C6 at 712345678 (prefix 7 with nine digits:
254 prepended), 71234 (prefix 7 with five digits: unchanged) and 151234
(prefix 1: unchanged). -/
theorem phone_subscriber_prefix_amended_witness :
    ((cleanStr "712345678".data).head? ≠ some '0'
      ∧ clean_phone "712345678".data = "254712345678".data)
    ∧ ((cleanStr "71234".data).head? ≠ some '0'
      ∧ clean_phone "71234".data = "71234".data)
    ∧ ((cleanStr "151234".data).head? ≠ some '0'
      ∧ clean_phone "151234".data = "151234".data) := by
  refine ⟨⟨by decide, ?_⟩, ⟨by decide, ?_⟩, by decide, ?_⟩
  · have h := (phone_subscriber_prefix_amended "712345678".data
      (by decide)).1.mpr ⟨by decide, by decide⟩
    rw [h]
    decide
  · have h := (phone_subscriber_prefix_amended "71234".data (by decide)).2 (by decide)
    rw [h]
    decide
  · have h := (phone_subscriber_prefix_amended "151234".data (by decide)).2 (by decide)
    rw [h]
    decide

/-- Counterexample to claim C7 as stated: clean_phone is not idempotent on
every input.  Removing the minus sign of the input exposes a leading tab,
so the first pass returns tab-0 unchanged, while the second pass strips
the tab and then rewrites the leading 0 to 254. -/
theorem phone_idem_cx :
    clean_phone ['-', '\t', '0'] = ['\t', '0']
    ∧ clean_phone (clean_phone ['-', '\t', '0']) = ['2', '5', '4']
    ∧ clean_phone (clean_phone ['-', '\t', '0']) ≠ clean_phone ['-', '\t', '0'] := by
  decide

/-- Claim C7, amended: clean_phone is idempotent on every input whose
cleaned form carries no leading or trailing whitespace (in particular on
every input without tab, newline or similar characters, since cleaning
removes all spaces); and every input whose cleaned form already starts
with 254 is returned as its cleaned form, unchanged by the prefix rules. -/
theorem phone_idem_amended (p : List Char)
    (h1 : (cleanStr p).dropWhile wsChar = cleanStr p)
    (h2 : (cleanStr p).reverse.dropWhile wsChar = (cleanStr p).reverse) :
    clean_phone (clean_phone p) = clean_phone p
    ∧ ((cleanStr p).take 3 = ['2', '5', '4'] → clean_phone p = cleanStr p) := by
  have hstrip : pyStrip (cleanStr p) = cleanStr p := by
    rw [pyStrip, h1, h2, List.reverse_reverse]
  have hsep : removeSep (cleanStr p) = cleanStr p := by
    simp only [cleanStr, removeSep]
    rw [List.filter_filter]
    simp
  have hclean : cleanStr (cleanStr p) = cleanStr p := by
    have hh : cleanStr (cleanStr p) = removeSep (pyStrip (cleanStr p)) := rfl
    rw [hh, hstrip, hsep]
  have hsepAll : ∀ c ∈ cleanStr p, sepOK c = true := by
    have hh : (cleanStr p).filter sepOK = cleanStr p := hsep
    exact List.filter_eq_self.mp hh
  by_cases hA : (cleanStr p).head? = some '0'
  · obtain ⟨t, hs⟩ : ∃ t, cleanStr p = '0' :: t := by
      cases hcs : cleanStr p with
      | nil => rw [hcs] at hA; simp at hA
      | cons c ts =>
        rw [hcs] at hA
        simp only [List.head?_cons, Option.some.injEq] at hA
        subst hA
        exact ⟨ts, rfl⟩
    have hcp : clean_phone p = '2' :: '5' :: '4' :: t := by
      simp only [clean_phone]
      rw [if_pos hA, hs]
      rfl
    have hsepT : ∀ c ∈ t, sepOK c = true := fun c hc =>
      hsepAll c (by rw [hs]; exact List.mem_cons_of_mem _ hc)
    have hbt : t = [] ∨ t.reverse.dropWhile wsChar = t.reverse := by
      have hrv : (cleanStr p).reverse = t.reverse ++ ['0'] := by rw [hs]; simp
      have h2' := h2
      rw [hrv] at h2'
      exact tail_boundary t '0' h2'
    have hout := prepend_254_cleanStr t hsepT hbt
    constructor
    · rw [hcp]
      simp only [clean_phone]
      rw [hout]
      simp
    · intro htk
      exfalso
      rw [hs] at htk
      simp [List.take_succ_cons] at htk
  · by_cases hB : (cleanStr p).head? = some '7' ∧ (cleanStr p).length = 9
    · have hcp : clean_phone p = '2' :: '5' :: '4' :: cleanStr p := by
        simp only [clean_phone]
        rw [if_neg hA, if_pos hB]
      have hout := prepend_254_cleanStr (cleanStr p) hsepAll (Or.inr h2)
      constructor
      · rw [hcp]
        simp only [clean_phone]
        rw [hout]
        simp
      · intro htk
        exfalso
        obtain ⟨h7, _⟩ := hB
        have hh2 : (cleanStr p).head? = some '2' := by
          cases hcs : cleanStr p with
          | nil => rw [hcs] at htk; simp at htk
          | cons c ts =>
            rw [hcs] at htk
            simp only [List.take_succ_cons, List.cons.injEq] at htk
            simp [hcs, htk.1]
        rw [hh2] at h7
        exact absurd h7 (by decide)
    · have hcp : clean_phone p = cleanStr p := by
        simp only [clean_phone]
        rw [if_neg hA, if_neg hB]
      refine ⟨?_, fun _ => hcp⟩
      rw [hcp]
      simp only [clean_phone]
      rw [hclean, if_neg hA, if_neg hB]

/-- Witness for the amended C7 at 0712345678: the cleaned form has no
boundary whitespace, and a second application of clean_phone is the
identity on the first result. -/
theorem phone_idem_amended_witness :
    (cleanStr "0712345678".data).dropWhile wsChar = cleanStr "0712345678".data
    ∧ (cleanStr "0712345678".data).reverse.dropWhile wsChar
        = (cleanStr "0712345678".data).reverse
    ∧ clean_phone (clean_phone "0712345678".data) = clean_phone "0712345678".data := by
  refine ⟨by decide, by decide, ?_⟩
  exact (phone_idem_amended "0712345678".data (by decide) (by decide)).1

end BVDash
